import Mathlib

/-!
Verification of the BitPacker library (TypeScript sources) against its
specification.  The definitions below are a shallow embedding of the
source files `src/bitMethods.ts`, `src/ResizableUint8Array.ts`,
`src/Packer.ts` and `src/Unpacker.ts`.

Modelling conventions:
* JavaScript numbers fed to the integer codecs are modelled as `Int`
  (the code guards with explicit range checks; `Number.isInteger` is
  implicit in the `Int` type).
* JavaScript 32-bit bitwise operators (`<<`, `|`, `>>>`) act on the
  32-bit pattern of their operands, i.e. on the value modulo `2 ^ 32`;
  the embedding makes these reductions explicit.
* Methods that mutate `this` are state-passing functions; methods that
  can throw return the thrown message either through `Except` (when the
  throw happens before any mutation) or as a `Prod` of an `Except`
  result and the post-call state (when the object remains usable and
  possibly mutated after the throw, as `Unpacker` does).
-/

/-- `toBit` from `bitMethods.ts`: `num === 0 ? 0 : 1`. -/
def toBit (num : Nat) : Nat :=
  if num = 0 then 0 else 1

/-- `getUint` from `bitMethods.ts`:
`bits.reduce((acc, curr) => (acc << 1) | curr, 0) >>> 0`.
The JS `<<` and `|` operate on 32-bit patterns, so each step is taken
modulo `2 ^ 32`; the trailing `>>> 0` reads the pattern back as an
unsigned value, i.e. reduces modulo `2 ^ 32`. -/
def getUint (bits : List Nat) : Nat :=
  (bits.foldl (fun acc curr => ((acc <<< 1) % 2 ^ 32) ||| curr) 0) % 2 ^ 32

/-- `parseUint` from `bitMethods.ts`.  The source checks
`num >= 2 ** length` and then `num < 0`, masks with `2 ** length - 1`
and emits `length` bits via `(num >> (length - 1 - i)) & 1`, MSB first. -/
def parseUint (num : Int) (length : Nat) : Except String (List Nat) :=
  if num ≥ 2 ^ length then
    .error "Input out of range"
  else if num < 0 then
    .error "Negative input"
  else
    let masked := num.toNat &&& (2 ^ length - 1)
    .ok ((List.range length).map (fun i => toBit ((masked >>> (length - 1 - i)) &&& 1)))

/-- `parseUint8` from `bitMethods.ts`. -/
def parseUint8 (num : Int) : Except String (List Nat) :=
  parseUint num 8

/-- `parseUint16` from `bitMethods.ts`. -/
def parseUint16 (num : Int) : Except String (List Nat) :=
  parseUint num 16

/-- `parseUint32` from `bitMethods.ts`. -/
def parseUint32 (num : Int) : Except String (List Nat) :=
  parseUint num 32

/-- `getInt` from `bitMethods.ts`: throws on an empty bit array, then
reads `bits[0]` as the sign bit; a set sign bit subtracts `2 ** length`
from the unsigned value (two's-complement recovery). -/
def getInt (bits : List Nat) : Except String Int :=
  match bits with
  | [] => .error "Empty bits array"
  | signBit :: _ =>
    let unsignedValue := getUint bits
    if signBit = 0 then
      .ok (unsignedValue : Int)
    else
      .ok ((unsignedValue : Int) - 2 ^ bits.length)

/-- `parseSignedInt` from `bitMethods.ts`: range-checks against
`[-2^(length-1), 2^(length-1) - 1]`, re-bases negative values by adding
`2 ** length` and delegates to `parseUint`. -/
def parseSignedInt (num : Int) (length : Nat) : Except String (List Nat) :=
  let maxSize : Int := 2 ^ (length - 1)
  if num < -maxSize ∨ num > maxSize - 1 then
    .error "Value out of range"
  else
    parseUint (if num < 0 then 2 ^ length + num else num) length

/-- Specification-level definition (from the spec's words, for refinement
comparison): the exact big-endian value of a bit sequence, the MSB-first
left fold `acc = 2 * acc + bit` with no wrap-around. -/
def bigEndianVal (bits : List Nat) : Nat :=
  bits.foldl (fun acc b => 2 * acc + b) 0

/-- Specification-level definition: the MSB-first `w`-bit binary
representation of a natural number. -/
def msbBits : Nat → Nat → List Nat
  | 0, _ => []
  | w + 1, x => msbBits w (x / 2) ++ [x % 2]

/-- Verification-level abbreviation: the byte value that
`Packer.flushBits` produces from a partial trailing group — the
pending bits padded on the right with 0s up to 8, decoded by
`getUint`. -/
def padByte (bits : List Nat) : Nat :=
  getUint (bits ++ List.replicate (8 - bits.length) 0)

/-- `isByte` from `ResizableUint8Array.ts`:
`Number.isInteger(num) && num >= 0 && num <= 255`. -/
def isByte (num : Int) : Bool :=
  decide (0 ≤ num) && decide (num ≤ 255)

/-- `isArrayOfBytes` from `ResizableUint8Array.ts`: `arr.every(isByte)`. -/
def isArrayOfBytes (arr : List Int) : Bool :=
  arr.all isByte

/-- The growable byte buffer of `ResizableUint8Array.ts`.  `inner`
models the written cells `#inner[0 .. #writePosition)` of the backing
`Uint8Array` (so `#writePosition = inner.length`); cells between the
write position and the capacity are unobservable zero padding, and the
capacity bookkeeping (`expand`, `isFull`) only affects allocation, not
the observable contents.  `readPosition` models `#readPosition`. -/
structure ResizableUint8Array where
  inner : List Nat
  readPosition : Nat
deriving DecidableEq, Repr

namespace ResizableUint8Array

/-- `compact`: moves the unread bytes to the start of a fresh backing
array and resets the cursors. -/
def compact (a : ResizableUint8Array) : ResizableUint8Array :=
  { inner := a.inner.drop a.readPosition, readPosition := 0 }

/-- `push`: validates `isByte` (throwing `RangeError` before any
mutation) and appends one byte at the write position. -/
def push (a : ResizableUint8Array) (toAdd : Int) : Except String ResizableUint8Array :=
  if ¬ isByte toAdd then
    .error "Invalid byte"
  else
    .ok { a with inner := a.inner ++ [toAdd.toNat] }

/-- `set`: validates the whole array with `isArrayOfBytes` (throwing
`RangeError` before any mutation) and appends the bytes at the write
position. -/
def set (a : ResizableUint8Array) (toAdd : List Int) : Except String ResizableUint8Array :=
  if ¬ isArrayOfBytes toAdd then
    .error "Invalid byte array"
  else
    .ok { a with inner := a.inner ++ toAdd.map Int.toNat }

/-- `get`: `#inner.slice(#readPosition, #writePosition)`, the unread
region, without consuming it. -/
def get (a : ResizableUint8Array) : List Nat :=
  a.inner.drop a.readPosition

/-- `toArray`: `[...this.get()]`. -/
def toArray (a : ResizableUint8Array) : List Nat :=
  a.get

/-- `shift`: returns `undefined` when no unread byte remains; otherwise
compacts once the discarded prefix exceeds 512 cells, then returns the
byte at the read position and advances the read cursor. -/
def shift (a : ResizableUint8Array) : Option (Nat × ResizableUint8Array) :=
  if a.readPosition ≥ a.inner.length then
    none
  else
    let s := if a.readPosition > 512 then a.compact else a
    some (s.inner.getD s.readPosition 0, { s with readPosition := s.readPosition + 1 })

/-- The `length` getter: `#writePosition - #readPosition`, the number of
unread bytes. -/
def size (a : ResizableUint8Array) : Nat :=
  a.inner.length - a.readPosition

/-- `[Symbol.iterator]`, run to completion (as the spread `[...buf]`
does): yields every unread byte, consuming each one by advancing the
read cursor. -/
def iterateAll (a : ResizableUint8Array) : List Nat × ResizableUint8Array :=
  (a.inner.drop a.readPosition, { a with readPosition := a.inner.length })

/-- `isEmpty`: `#writePosition === #readPosition`. -/
def isEmpty (a : ResizableUint8Array) : Bool :=
  decide (a.inner.length = a.readPosition)

end ResizableUint8Array

/-- The `Packer` of `Packer.ts`: a growable byte buffer plus the
transient bit queue. -/
structure Packer where
  bytes : ResizableUint8Array
  bits : List Nat
deriving DecidableEq, Repr

namespace Packer

/-- `putBit`: rejects values other than 0 and 1 with `InvalidBitError`,
appends to the bit queue, and flushes the queue into the byte buffer as
one byte once it reaches 8 bits. -/
def putBit (p : Packer) (bit : Nat) : Except String Packer :=
  if bit ≠ 0 ∧ bit ≠ 1 then
    .error "Bit value must be 0 or 1"
  else
    let bits' := p.bits ++ [bit]
    if bits'.length = 8 then do
      let bytes' ← p.bytes.push (getUint bits')
      .ok { bytes := bytes', bits := [] }
    else
      .ok { p with bits := bits' }

/-- `putBits`: `bits.forEach((bit) => this.putBit(bit))`, sequential,
stopping at the first invalid bit. -/
def putBits (p : Packer) (bits : List Nat) : Except String Packer :=
  match bits with
  | [] => .ok p
  | b :: rest => do
    let p1 ← p.putBit b
    p1.putBits rest

/-- `flushBits` (private): pads a local copy of the bit queue with 0s up
to 8 and pushes the padded byte when the queue length is not a multiple
of 8.  The source's `while (bits.length !== 8) bits.push(0)` terminates
only because `putBit` keeps the queue at ≤ 7 bits.  Note that the
source pads a copy (`const bits = [...this.bits]`) and never clears
`this.bits`. -/
def flushBits (p : Packer) : Except String Packer :=
  let bits := p.bits
  if bits.length % 8 ≠ 0 then do
    let padded := bits ++ List.replicate (8 - bits.length) 0
    let bytes' ← p.bytes.push (getUint padded)
    .ok { p with bytes := bytes' }
  else
    .ok p

/-- `getBytes`: flushes a partial trailing group, then returns
`[...this.bytes]` — the spread drives the buffer's consuming iterator. -/
def getBytes (p : Packer) : Except String (List Nat × Packer) := do
  let p1 ← p.flushBits
  let (out, bytes') := p1.bytes.iterateAll
  .ok (out, { p1 with bytes := bytes' })

/-- `getBuffer`: flushes a partial trailing group, then returns
`this.bytes.get()`, the non-consuming snapshot. -/
def getBuffer (p : Packer) : Except String (List Nat × Packer) := do
  let p1 ← p.flushBits
  .ok (p1.bytes.get, p1)

/-- `size`: `this.bits.length + this.bytes.length * 8`. -/
def size (p : Packer) : Nat :=
  p.bits.length + p.bytes.size * 8

end Packer

/-- One byte exploded MSB-first into 8 bits, as `Unpacker.unpackByte`
does with `for (let i = 7; i >= 0; i--) bits.push(((byte >> i) & 1) ? 1 : 0)`. -/
def byteToBits (byte : Nat) : List Nat :=
  (List.range 8).map (fun i => toBit ((byte >>> (7 - i)) &&& 1))

/-- The `Unpacker` of `Unpacker.ts`: a byte source wrapped in the
growable buffer plus the transient bit queue. -/
structure Unpacker where
  bits : List Nat
  bytes : ResizableUint8Array
deriving DecidableEq, Repr

namespace Unpacker

/-- `unpackByte` (private): shifts one byte off the buffer (no-op when
the buffer holds no unread byte) and appends its 8 bits, MSB first, to
the bit queue. -/
def unpackByte (u : Unpacker) : Unpacker :=
  match u.bytes.shift with
  | none => u
  | some (byte, bytes') => { bits := u.bits ++ byteToBits byte, bytes := bytes' }

/-- `readBit`: refills the bit queue from the byte buffer when empty,
then pops the front bit; throws `RangeError("Unexpected end of
stream")` when no bit is available after the refill attempt (the state
is returned alongside because the object survives the throw). -/
def readBit (u : Unpacker) : Except String Nat × Unpacker :=
  let u1 := if u.bits.length = 0 then u.unpackByte else u
  match u1.bits with
  | [] => (.error "Unexpected end of stream", u1)
  | b :: rest => (.ok b, { u1 with bits := rest })

/-- `readBits(n)`: calls `readBit` exactly `n` times in order,
propagating the first failure. -/
def readBits (u : Unpacker) (n : Nat) : Except String (List Nat) × Unpacker :=
  match n with
  | 0 => (.ok [], u)
  | n + 1 =>
    match u.readBit with
    | (.error e, u1) => (.error e, u1)
    | (.ok b, u1) =>
      match u1.readBits n with
      | (.error e, u2) => (.error e, u2)
      | (.ok bs, u2) => (.ok (b :: bs), u2)

/-- `remaining`: `this.bits.length + this.bytes.length * 8`. -/
def remaining (u : Unpacker) : Nat :=
  u.bits.length + u.bytes.size * 8

/-- The `while` loop of `peek`: refill the bit queue one byte at a time
until it holds at least `n` bits, throwing as soon as the byte source
is exhausted first.  Terminates because each refill consumes one unread
byte. -/
def peekLoop (u : Unpacker) (n : Nat) : Option String × Unpacker :=
  if u.bits.length < n then
    if u.bytes.size = 0 then
      (some "Not enough bits to peek", u)
    else
      peekLoop u.unpackByte n
  else
    (none, u)
termination_by u.bytes.size
decreasing_by
  have hsz : ¬ u.bytes.size = 0 := by assumption
  have hlt : u.bytes.readPosition < u.bytes.inner.length := by
    simp only [ResizableUint8Array.size] at hsz
    omega
  show (u.unpackByte).bytes.size < u.bytes.size
  unfold Unpacker.unpackByte ResizableUint8Array.shift
  rw [if_neg (not_le.mpr hlt)]
  by_cases hc : u.bytes.readPosition > 512
  · simp only [if_pos hc, ResizableUint8Array.size, ResizableUint8Array.compact,
      List.length_drop]
    omega
  · simp only [if_neg hc, ResizableUint8Array.size]
    omega

/-- `peek(n)`: runs the refill loop, then returns
`this.bits.slice(0, n)` without removing anything from the queue. -/
def peek (u : Unpacker) (n : Nat) : Except String (List Nat) × Unpacker :=
  match u.peekLoop n with
  | (some e, u') => (.error e, u')
  | (none, u') => (.ok (u'.bits.take n), u')

/-- Verification-level view: the full upcoming bit stream of an
`Unpacker` — the queued bits followed by the bits of every unread
byte. -/
def stream (u : Unpacker) : List Nat :=
  u.bits ++ (u.bytes.get.map byteToBits).flatten

end Unpacker

/-! ### Arithmetic facts about the bit codec -/

theorem toBit_of_le_one {b : Nat} (hb : b ≤ 1) : toBit b = b := by
  unfold toBit
  split <;> omega

theorem two_mul_lor_one (m : Nat) : 2 * m ||| 1 = 2 * m + 1 := by
  apply Nat.eq_of_testBit_eq
  intro i
  rw [Nat.testBit_or]
  cases i with
  | zero => simp [Nat.testBit_zero, Nat.mul_add_mod]
  | succ j =>
    rw [Nat.testBit_succ, Nat.testBit_succ, Nat.testBit_succ]
    have h1 : 2 * m / 2 = m := by omega
    have h2 : (2 * m + 1) / 2 = m := by omega
    have h3 : (1 : Nat) / 2 = 0 := by norm_num
    rw [h1, h2, h3]
    simp [Nat.zero_testBit]

theorem two_mul_lor_bit (m : Nat) {b : Nat} (hb : b ≤ 1) : 2 * m ||| b = 2 * m + b := by
  interval_cases b
  · simp
  · exact two_mul_lor_one m

theorem getUint_step (acc : Nat) {b : Nat} (hb : b ≤ 1) :
    ((acc <<< 1) % 2 ^ 32) ||| b = (2 * acc + b) % 2 ^ 32 := by
  have hsh : acc <<< 1 = 2 * acc := by
    rw [Nat.shiftLeft_eq]
    ring
  have h32 : (2 : Nat) ^ 32 = 2 * 2 ^ 31 := by norm_num
  have hmod : (2 * acc) % 2 ^ 32 = 2 * (acc % 2 ^ 31) := by
    rw [h32, Nat.mul_mod_mul_left]
  have hlt : 2 * (acc % 2 ^ 31) + b < 2 ^ 32 := by
    have : acc % 2 ^ 31 < 2 ^ 31 := Nat.mod_lt _ (by norm_num)
    omega
  have hme : 2 * (acc % 2 ^ 31) + b ≡ 2 * acc + b [MOD 2 ^ 32] := by
    rw [h32]
    exact (Nat.ModEq.mul_left' 2 (Nat.mod_modEq acc (2 ^ 31))).add_right b
  rw [hsh, hmod, two_mul_lor_bit _ hb]
  calc 2 * (acc % 2 ^ 31) + b
      = (2 * (acc % 2 ^ 31) + b) % 2 ^ 32 := (Nat.mod_eq_of_lt hlt).symm
    _ = (2 * acc + b) % 2 ^ 32 := hme

theorem foldl_plain_modEq (bits : List Nat) (c c' : Nat) (h : c ≡ c' [MOD 2 ^ 32]) :
    bits.foldl (fun acc b => 2 * acc + b) c ≡
      bits.foldl (fun acc b => 2 * acc + b) c' [MOD 2 ^ 32] := by
  induction bits generalizing c c' with
  | nil => exact h
  | cons b rest ih => exact ih _ _ ((h.mul_left 2).add_right b)

theorem getUint_foldl_eq (bits : List Nat) (hb : ∀ b ∈ bits, b ≤ 1) :
    ∀ a : Nat, a < 2 ^ 32 →
      bits.foldl (fun acc curr => ((acc <<< 1) % 2 ^ 32) ||| curr) a
        = (bits.foldl (fun acc b => 2 * acc + b) a) % 2 ^ 32 := by
  induction bits with
  | nil =>
    intro a ha
    simp only [List.foldl_nil]
    exact (Nat.mod_eq_of_lt ha).symm
  | cons b rest ih =>
    intro a ha
    simp only [List.foldl_cons]
    have hb1 : b ≤ 1 := hb b (by simp)
    have hrest : ∀ x ∈ rest, x ≤ 1 := fun x hx => hb x (by simp [hx])
    rw [getUint_step a hb1]
    rw [ih hrest _ (Nat.mod_lt _ (by norm_num))]
    exact foldl_plain_modEq rest _ _ (Nat.mod_modEq _ _)

/-- `getUint` computes the plain MSB-first fold reduced modulo `2 ^ 32`. -/
theorem getUint_eq_bigEndianVal_mod (bits : List Nat) (hb : ∀ b ∈ bits, b ≤ 1) :
    getUint bits = bigEndianVal bits % 2 ^ 32 := by
  unfold getUint bigEndianVal
  rw [getUint_foldl_eq bits hb 0 (by norm_num)]
  exact Nat.mod_mod_of_dvd _ dvd_rfl

theorem foldl_plain_lt (bits : List Nat) (hb : ∀ b ∈ bits, b ≤ 1) :
    ∀ (a k : Nat), a < 2 ^ k →
      bits.foldl (fun acc b => 2 * acc + b) a < 2 ^ (k + bits.length) := by
  induction bits with
  | nil =>
    intro a k ha
    simpa using ha
  | cons b rest ih =>
    intro a k ha
    simp only [List.foldl_cons, List.length_cons]
    have hb1 : b ≤ 1 := hb b (by simp)
    have hrest : ∀ x ∈ rest, x ≤ 1 := fun x hx => hb x (by simp [hx])
    have hstep : 2 * a + b < 2 ^ (k + 1) := by
      rw [pow_succ]
      omega
    have h2 := ih hrest (2 * a + b) (k + 1) hstep
    have harith : k + 1 + rest.length = k + (rest.length + 1) := by omega
    rw [harith] at h2
    exact h2

theorem bigEndianVal_lt (bits : List Nat) (hb : ∀ b ∈ bits, b ≤ 1) :
    bigEndianVal bits < 2 ^ bits.length := by
  have := foldl_plain_lt bits hb 0 0 (by norm_num)
  simpa [bigEndianVal] using this

/-- For at most 32 bits the JS 32-bit wrap-around in `getUint` never fires. -/
theorem getUint_eq_bigEndianVal (bits : List Nat) (hb : ∀ b ∈ bits, b ≤ 1)
    (hlen : bits.length ≤ 32) : getUint bits = bigEndianVal bits := by
  rw [getUint_eq_bigEndianVal_mod bits hb]
  exact Nat.mod_eq_of_lt ((bigEndianVal_lt bits hb).trans_le (Nat.pow_le_pow_right (by norm_num) hlen))

/-! ### The MSB-first representation -/

theorem msbBits_length : ∀ (w x : Nat), (msbBits w x).length = w := by
  intro w
  induction w with
  | zero => intro x; simp [msbBits]
  | succ v ih => intro x; simp [msbBits, ih]

theorem msbBits_le_one : ∀ (w x : Nat), ∀ b ∈ msbBits w x, b ≤ 1 := by
  intro w
  induction w with
  | zero => intro x b hb; simp [msbBits] at hb
  | succ v ih =>
    intro x b hb
    simp only [msbBits, List.mem_append, List.mem_singleton] at hb
    rcases hb with hb | hb
    · exact ih _ b hb
    · omega

theorem bigEndianVal_append_singleton (l : List Nat) (b : Nat) :
    bigEndianVal (l ++ [b]) = 2 * bigEndianVal l + b := by
  unfold bigEndianVal
  rw [List.foldl_append]
  simp

theorem bigEndianVal_msbBits : ∀ (w x : Nat), bigEndianVal (msbBits w x) = x % 2 ^ w := by
  intro w
  induction w with
  | zero => intro x; simp [msbBits, bigEndianVal, Nat.mod_one]
  | succ v ih =>
    intro x
    rw [msbBits, bigEndianVal_append_singleton, ih]
    have hpow : (2 : Nat) ^ (v + 1) = 2 * 2 ^ v := by rw [pow_succ]; ring
    rw [hpow, Nat.mod_mul]
    omega

/-- The bit-extraction map of `parseUint` produces exactly the MSB-first
representation. -/
theorem rangeMap_eq_msbBits : ∀ (w x : Nat),
    (List.range w).map (fun i => toBit ((x >>> (w - 1 - i)) &&& 1)) = msbBits w x := by
  intro w
  induction w with
  | zero => intro x; simp [msbBits]
  | succ w ih =>
    intro x
    rw [List.range_succ, List.map_append, msbBits]
    congr 1
    · rw [← ih (x / 2)]
      apply List.map_congr_left
      intro i hi
      have hi' : i < w := List.mem_range.mp hi
      have harg : w + 1 - 1 - i = w - i := by omega
      rw [harg]
      have hsh : x >>> (w - i) = (x / 2) >>> (w - 1 - i) := by
        rw [Nat.shiftRight_eq_div_pow, Nat.shiftRight_eq_div_pow, Nat.div_div_eq_div_mul]
        have h2 : (2 : Nat) * 2 ^ (w - 1 - i) = 2 ^ (w - i) := by
          rw [← pow_succ']
          congr 1
          omega
        rw [h2]
      rw [hsh]
    · simp only [List.map_cons, List.map_nil]
      have harg : w + 1 - 1 - w = 0 := by omega
      rw [harg, Nat.shiftRight_zero, Nat.and_one_is_mod, toBit_of_le_one (by omega)]

theorem parseUint_ok (x : Int) (w : Nat) (h0 : 0 ≤ x) (hlt : x < 2 ^ w) :
    parseUint x w = .ok (msbBits w x.toNat) := by
  have hx : x.toNat < 2 ^ w := by
    have hcast : ((2 ^ w : Nat) : Int) = 2 ^ w := by push_cast; ring
    omega
  simp only [parseUint, not_le.mpr hlt, not_lt.mpr h0, if_neg, if_false,
    Nat.and_pow_two_sub_one_eq_mod, Nat.mod_eq_of_lt hx]
  rw [rangeMap_eq_msbBits]

theorem parseUint_isOk (x : Int) (w : Nat) :
    (parseUint x w).isOk = true ↔ 0 ≤ x ∧ x < 2 ^ w := by
  unfold parseUint
  split
  · rename_i h
    simp only [Except.isOk, Except.toBool]
    constructor
    · intro hc; cases hc
    · intro hc; omega
  · split
    · rename_i h1 h2
      simp only [Except.isOk, Except.toBool]
      constructor
      · intro hc; cases hc
      · intro hc; omega
    · rename_i h1 h2
      simp only [Except.isOk, Except.toBool]
      constructor
      · intro _; omega
      · intro _; trivial

/-- `getUint` inverts the MSB-first representation for widths up to 32. -/
theorem getUint_msbBits (w y : Nat) (hw : w ≤ 32) (hy : y < 2 ^ w) :
    getUint (msbBits w y) = y := by
  rw [getUint_eq_bigEndianVal_mod _ (msbBits_le_one w y), bigEndianVal_msbBits,
    Nat.mod_eq_of_lt hy]
  exact Nat.mod_eq_of_lt (hy.trans_le (Nat.pow_le_pow_right (by norm_num) hw))

/-- The MSB-first representation of width `w + 1` starts with the top
bit `x / 2 ^ w % 2`. -/
theorem msbBits_succ_head (w x : Nat) :
    ∃ t, msbBits (w + 1) x = (x / 2 ^ w % 2) :: t := by
  refine ⟨((List.range w).map
    (fun i => toBit ((x >>> (w + 1 - 1 - Nat.succ i)) &&& 1))), ?_⟩
  rw [← rangeMap_eq_msbBits, List.range_succ_eq_map, List.map_cons, List.map_map]
  congr 1
  have h0 : w + 1 - 1 - 0 = w := by omega
  rw [h0, Nat.shiftRight_eq_div_pow, Nat.and_one_is_mod]
  exact toBit_of_le_one (by omega)

/-- `getInt` on the MSB-first representation recovers the
two's-complement value. -/
theorem getInt_msbBits (w y : Nat) (hw : 0 < w) (h32 : w ≤ 32) (hy : y < 2 ^ w) :
    getInt (msbBits w y) =
      .ok (if y < 2 ^ (w - 1) then (y : Int) else (y : Int) - 2 ^ w) := by
  obtain ⟨v, rfl⟩ : ∃ v, w = v + 1 := ⟨w - 1, by omega⟩
  obtain ⟨t, ht⟩ := msbBits_succ_head v y
  have hlen : (y / 2 ^ v % 2 :: t).length = v + 1 := by
    rw [← ht, msbBits_length]
  have hgu : getUint (y / 2 ^ v % 2 :: t) = y := by
    rw [← ht]
    exact getUint_msbBits _ _ h32 hy
  rw [ht]
  by_cases hcase : y < 2 ^ v
  · have hdiv : y / 2 ^ v = 0 := Nat.div_eq_of_lt hcase
    have h02 : y / 2 ^ v % 2 = 0 := by rw [hdiv]
    rw [h02] at hgu ⊢
    simp only [getInt, if_true]
    rw [hgu]
    have hvv : v + 1 - 1 = v := by omega
    rw [hvv, if_pos hcase]
  · have hge : 2 ^ v ≤ y := not_lt.mp hcase
    have hlt2 : y < 2 * 2 ^ v := by
      have hp : (2 : Nat) ^ (v + 1) = 2 * 2 ^ v := by rw [pow_succ]; ring
      omega
    have hdiv : y / 2 ^ v = 1 := by
      rw [Nat.div_eq_sub_div (by positivity) hge, Nat.div_eq_of_lt (by omega)]
    have h12 : y / 2 ^ v % 2 = 1 := by rw [hdiv]
    rw [h12] at hgu hlen ⊢
    simp only [getInt, one_ne_zero, if_false]
    rw [hgu]
    have htl : (1 :: t).length = v + 1 := hlen
    rw [htl]
    have hvv : v + 1 - 1 = v := by omega
    rw [hvv, if_neg hcase]

theorem parseSignedInt_isOk (x : Int) (w : Nat) (hw1 : 0 < w) :
    (parseSignedInt x w).isOk = true ↔ -2 ^ (w - 1) ≤ x ∧ x ≤ 2 ^ (w - 1) - 1 := by
  have h2 : (2 : Int) ^ w = 2 ^ (w - 1) * 2 := by
    rw [← pow_succ]
    congr 1
    omega
  have hpos : (0 : Int) < 2 ^ (w - 1) := by positivity
  simp only [parseSignedInt]
  split
  · rename_i h
    simp only [Except.isOk, Except.toBool]
    constructor
    · intro hc
      exact absurd hc (by simp)
    · intro hc
      omega
  · rename_i h
    push_neg at h
    rw [parseUint_isOk]
    constructor
    · intro _
      exact h
    · intro _
      constructor
      · split <;> omega
      · split <;> omega

/-- C2: for each width w in {8, 16, 32}, decoding the encoding is the
identity on the full unsigned range `[0, 2^w)` and, for the signed
encoder, on the full signed range `[-2^(w-1), 2^(w-1) - 1]`. -/
theorem c2_roundtrip (w : Nat) (hw : w = 8 ∨ w = 16 ∨ w = 32) (x : Int) :
    (0 ≤ x → x < 2 ^ w → (parseUint x w).map (fun bs => (getUint bs : Int)) = .ok x) ∧
    (-2 ^ (w - 1) ≤ x → x ≤ 2 ^ (w - 1) - 1 →
      (parseSignedInt x w).bind getInt = .ok x) := by
  have hw1 : 0 < w := by rcases hw with rfl | rfl | rfl <;> norm_num
  have hw32 : w ≤ 32 := by rcases hw with rfl | rfl | rfl <;> norm_num
  have hcast : ((2 ^ w : Nat) : Int) = 2 ^ w := by push_cast; ring
  have hcast' : ((2 ^ (w - 1) : Nat) : Int) = 2 ^ (w - 1) := by push_cast; ring
  have h2 : (2 : Int) ^ w = 2 ^ (w - 1) * 2 := by
    rw [← pow_succ]
    congr 1
    omega
  have hpos : (0 : Int) < 2 ^ (w - 1) := by positivity
  constructor
  · intro h0 hlt
    rw [parseUint_ok x w h0 hlt]
    simp only [Except.map]
    have hxn : x.toNat < 2 ^ w := by omega
    rw [getUint_msbBits w _ hw32 hxn]
    rw [Int.toNat_of_nonneg h0]
  · intro hlo hhi
    simp only [parseSignedInt]
    rw [if_neg (by push_neg; exact ⟨by omega, by omega⟩)]
    by_cases hneg : x < 0
    · rw [if_pos hneg]
      have hy0 : (0 : Int) ≤ 2 ^ w + x := by omega
      have hylt : 2 ^ w + x < 2 ^ w := by omega
      rw [parseUint_ok _ w hy0 hylt]
      simp only [Except.bind]
      have hyn : (2 ^ w + x).toNat < 2 ^ w := by omega
      rw [getInt_msbBits w _ hw1 hw32 hyn]
      rw [if_neg (by omega)]
      congr 1
      omega
    · rw [if_neg hneg]
      push_neg at hneg
      have hxlt : x < 2 ^ w := by omega
      rw [parseUint_ok x w hneg hxlt]
      simp only [Except.bind]
      have hxn : x.toNat < 2 ^ w := by omega
      rw [getInt_msbBits w _ hw1 hw32 hxn]
      rw [if_pos (by omega)]
      congr 1
      omega

/-- C2 witness: the round trip at width 8 for 200 (unsigned) and -3
(signed). -/
theorem c2_roundtrip_witness :
    (parseUint 200 8).map (fun bs => (getUint bs : Int)) = .ok 200 ∧
    (parseSignedInt (-3) 8).bind getInt = .ok (-3) :=
  ⟨(c2_roundtrip 8 (Or.inl rfl) 200).1 (by norm_num) (by norm_num),
   (c2_roundtrip 8 (Or.inl rfl) (-3)).2 (by norm_num) (by norm_num)⟩

/-- C6: the unsigned encoder fails exactly outside `[0, 2^w)` and
otherwise emits the `w`-bit MSB-first representation; the signed
encoder fails exactly outside `[-2^(w-1), 2^(w-1) - 1]` and otherwise
re-bases (adding `2^w` to negatives) and delegates to the unsigned
path.  All failures happen in `Except` before any bits are produced. -/
theorem c6_encode_range_spec (w : Nat) (hw : w = 8 ∨ w = 16 ∨ w = 32) (x : Int) :
    ((parseUint x w).isOk = false ↔ x < 0 ∨ x ≥ 2 ^ w) ∧
    (0 ≤ x → x < 2 ^ w →
      parseUint x w = .ok (msbBits w x.toNat) ∧ (msbBits w x.toNat).length = w) ∧
    ((parseSignedInt x w).isOk = false ↔ x < -2 ^ (w - 1) ∨ x > 2 ^ (w - 1) - 1) ∧
    (-2 ^ (w - 1) ≤ x → x ≤ 2 ^ (w - 1) - 1 →
      parseSignedInt x w = parseUint (if x < 0 then 2 ^ w + x else x) w) := by
  have hw1 : 0 < w := by rcases hw with rfl | rfl | rfl <;> norm_num
  refine ⟨?_, ?_, ?_, ?_⟩
  · rw [← Bool.not_eq_true, parseUint_isOk]
    omega
  · intro h0 hlt
    exact ⟨parseUint_ok x w h0 hlt, msbBits_length w x.toNat⟩
  · rw [← Bool.not_eq_true, parseSignedInt_isOk x w hw1]
    omega
  · intro hlo hhi
    simp only [parseSignedInt]
    rw [if_neg (by push_neg; exact ⟨by omega, by omega⟩)]

/-- C6 witness: width 8 at the boundary value 256. -/
theorem c6_encode_range_witness :
    (((parseUint 256 8).isOk = false ↔ (256 : Int) < 0 ∨ (256 : Int) ≥ 2 ^ 8) ∧
      ((0 : Int) ≤ 256 → (256 : Int) < 2 ^ 8 →
        parseUint 256 8 = .ok (msbBits 8 (256 : Int).toNat) ∧
          (msbBits 8 (256 : Int).toNat).length = 8) ∧
      ((parseSignedInt 256 8).isOk = false ↔
        (256 : Int) < -2 ^ (8 - 1) ∨ (256 : Int) > 2 ^ (8 - 1) - 1) ∧
      ((-2 ^ (8 - 1) : Int) ≤ 256 → (256 : Int) ≤ 2 ^ (8 - 1) - 1 →
        parseSignedInt 256 8 =
          parseUint (if (256 : Int) < 0 then 2 ^ 8 + 256 else 256) 8)) :=
  c6_encode_range_spec 8 (Or.inl rfl) 256

/-- C9 counterexample: a 33-bit sequence (within the claim's stated
domain of lengths up to 64) on which `getUint` wraps modulo `2 ^ 32`
and so differs from the exact MSB-first fold. -/
theorem c9_counterexample :
    ((1 :: List.replicate 32 0).all (fun b => decide (b ≤ 1)) = true) ∧
    (1 :: List.replicate 32 0 : List Nat).length = 33 ∧
    getUint (1 :: List.replicate 32 0) = 0 ∧
    bigEndianVal (1 :: List.replicate 32 0) = 2 ^ 32 ∧
    getUint (1 :: List.replicate 32 0) ≠ bigEndianVal (1 :: List.replicate 32 0) := by
  refine ⟨by decide, by decide, by decide, by decide, by decide⟩

/-- C9 amended: `getUint` returns the MSB-first left fold reduced
modulo `2 ^ 32` (the JS 32-bit shift wraps); the fold is returned
exactly only for sequences of at most 32 bits. -/
theorem c9_amended_getUint_mod (bits : List Nat) (hb : ∀ b ∈ bits, b ≤ 1) :
    getUint bits = bigEndianVal bits % 2 ^ 32 ∧
    (bits.length ≤ 32 → getUint bits = bigEndianVal bits) :=
  ⟨getUint_eq_bigEndianVal_mod bits hb, getUint_eq_bigEndianVal bits hb⟩

/-- C9 amended witness: evaluation on the 3-bit sequence [1, 0, 1]. -/
theorem c9_amended_witness :
    getUint [1, 0, 1] = bigEndianVal [1, 0, 1] % 2 ^ 32 ∧
    (([1, 0, 1] : List Nat).length ≤ 32 → getUint [1, 0, 1] = bigEndianVal [1, 0, 1]) :=
  c9_amended_getUint_mod [1, 0, 1] (by decide)

/-! ### Byte-buffer lemmas -/

theorem drop_cons_getD (l : List Nat) (n : Nat) (h : n < l.length) :
    l.drop n = l.getD n 0 :: l.drop (n + 1) := by
  rw [List.drop_eq_getElem_cons h]
  congr 1
  simp [List.getD_eq_getElem?_getD, List.getElem?_eq_getElem h]

theorem ResizableUint8Array.get_length (a : ResizableUint8Array) :
    a.get.length = a.size := by
  simp [ResizableUint8Array.get, ResizableUint8Array.size]

theorem ResizableUint8Array.shift_eq_none (a : ResizableUint8Array) (h : a.size = 0) :
    a.shift = none := by
  unfold ResizableUint8Array.shift
  rw [if_pos]
  simp only [ResizableUint8Array.size] at h
  omega

theorem ResizableUint8Array.shift_spec (a : ResizableUint8Array) (h : a.size ≠ 0) :
    ∃ b a', a.shift = some (b, a') ∧ a.get = b :: a'.get ∧ a'.size + 1 = a.size := by
  have hlt : a.readPosition < a.inner.length := by
    simp only [ResizableUint8Array.size] at h
    omega
  simp only [ResizableUint8Array.shift, if_neg (not_le.mpr hlt)]
  by_cases hc : a.readPosition > 512
  · rw [if_pos hc]
    have hlen : (0 : Nat) < (a.compact).inner.length := by
      simp only [ResizableUint8Array.compact, List.length_drop]
      omega
    refine ⟨_, _, rfl, ?_, ?_⟩
    · have hdc := drop_cons_getD (a.compact).inner 0 hlen
      rw [List.drop_zero] at hdc
      simpa [ResizableUint8Array.get, ResizableUint8Array.compact] using hdc
    · simp only [ResizableUint8Array.size, ResizableUint8Array.compact, List.length_drop]
      omega
  · rw [if_neg hc]
    refine ⟨_, _, rfl, ?_, ?_⟩
    · simpa [ResizableUint8Array.get] using drop_cons_getD a.inner a.readPosition hlt
    · simp only [ResizableUint8Array.size]
      omega

/-! ### Unpacker stream lemmas -/

theorem byteToBits_length (b : Nat) : (byteToBits b).length = 8 := by
  simp [byteToBits]

theorem flatten_map_byteToBits_length (l : List Nat) :
    ((l.map byteToBits).flatten).length = l.length * 8 := by
  induction l with
  | nil => simp
  | cons b t ih =>
    simp only [List.map_cons, List.flatten_cons, List.length_append, ih,
      byteToBits_length, List.length_cons]
    ring

theorem Unpacker.remaining_eq_stream_length (u : Unpacker) :
    u.remaining = u.stream.length := by
  unfold Unpacker.remaining Unpacker.stream
  rw [List.length_append, flatten_map_byteToBits_length, ResizableUint8Array.get_length]

theorem Unpacker.stream_eq_nil_iff (u : Unpacker) :
    u.stream = [] ↔ u.bits = [] ∧ u.bytes.size = 0 := by
  unfold Unpacker.stream
  rw [List.append_eq_nil]
  constructor
  · rintro ⟨hb, hf⟩
    refine ⟨hb, ?_⟩
    rw [← ResizableUint8Array.get_length]
    cases hg : u.bytes.get with
    | nil => simp
    | cons c t =>
      rw [hg] at hf
      simp [byteToBits_length] at hf
      obtain ⟨h8, -⟩ := hf
      cases h8
  · rintro ⟨hb, hz⟩
    refine ⟨hb, ?_⟩
    have : u.bytes.get = [] := by
      have := ResizableUint8Array.get_length u.bytes
      rw [hz] at this
      exact List.length_eq_zero.mp this
    rw [this]
    simp

theorem Unpacker.unpackByte_of_size_zero (u : Unpacker) (h : u.bytes.size = 0) :
    u.unpackByte = u := by
  unfold Unpacker.unpackByte
  rw [ResizableUint8Array.shift_eq_none u.bytes h]

theorem Unpacker.unpackByte_stream (u : Unpacker) :
    (u.unpackByte).stream = u.stream := by
  by_cases h : u.bytes.size = 0
  · rw [Unpacker.unpackByte_of_size_zero u h]
  · obtain ⟨b, a', hs, hget, hsz⟩ := ResizableUint8Array.shift_spec u.bytes h
    unfold Unpacker.unpackByte
    rw [hs]
    unfold Unpacker.stream
    rw [hget]
    simp [List.append_assoc]

theorem Unpacker.unpackByte_size_lt (u : Unpacker) (h : u.bytes.size ≠ 0) :
    (u.unpackByte).bytes.size < u.bytes.size := by
  obtain ⟨b, a', hs, hget, hsz⟩ := ResizableUint8Array.shift_spec u.bytes h
  unfold Unpacker.unpackByte
  rw [hs]
  simp only []
  omega

theorem Unpacker.readBit_of_stream_nil (u : Unpacker) (h : u.stream = []) :
    u.readBit = (.error "Unexpected end of stream", u) := by
  obtain ⟨hb, hz⟩ := (Unpacker.stream_eq_nil_iff u).mp h
  have hlen0 : u.bits.length = 0 := by rw [hb]; rfl
  simp only [Unpacker.readBit]
  rw [if_pos hlen0, Unpacker.unpackByte_of_size_zero u hz, hb]

theorem Unpacker.readBit_cons (u : Unpacker) (b : Nat) (s : List Nat)
    (h : u.stream = b :: s) :
    (u.readBit).1 = .ok b ∧ (u.readBit).2.stream = s := by
  rcases hbits : u.bits with - | ⟨c, rest⟩
  · -- empty bit queue: the refill kicks in
    have hz : u.bytes.size ≠ 0 := by
      intro hz0
      rw [(Unpacker.stream_eq_nil_iff u).mpr ⟨hbits, hz0⟩] at h
      cases h
    have hlen0 : u.bits.length = 0 := by rw [hbits]; rfl
    have hstream : (u.unpackByte).stream = b :: s := by
      rw [Unpacker.unpackByte_stream u, h]
    have hbits1 : (u.unpackByte).bits = byteToBits (u.bytes.get.headD 0) := by
      obtain ⟨b0, a', hs, hget, hsz⟩ := ResizableUint8Array.shift_spec u.bytes hz
      unfold Unpacker.unpackByte
      rw [hs, hget, hbits]
      rfl
    obtain ⟨hd, tl, hht⟩ : ∃ hd tl, (u.unpackByte).bits = hd :: tl := by
      rw [hbits1]
      cases hbt : byteToBits (u.bytes.get.headD 0) with
      | nil =>
        have := byteToBits_length (u.bytes.get.headD 0)
        rw [hbt] at this
        cases this
      | cons x t => exact ⟨x, t, rfl⟩
    have hs1 : (u.unpackByte).stream = hd :: (tl ++ ((u.unpackByte).bytes.get.map byteToBits).flatten) := by
      unfold Unpacker.stream
      rw [hht]
      rfl
    rw [hstream] at hs1
    injection hs1 with hhd htl
    simp only [Unpacker.readBit]
    rw [if_pos hlen0, hht]
    dsimp only
    constructor
    · rw [hhd]
    · unfold Unpacker.stream
      dsimp only
      rw [← htl]
  · -- non-empty bit queue: no refill
    have hlen : ¬ u.bits.length = 0 := by rw [hbits]; simp
    have hcb : c = b ∧ rest ++ (u.bytes.get.map byteToBits).flatten = s := by
      unfold Unpacker.stream at h
      rw [hbits] at h
      simp only [List.cons_append] at h
      injection h with h1 h2
      exact ⟨h1, h2⟩
    simp only [Unpacker.readBit]
    rw [if_neg hlen, hbits]
    dsimp only
    constructor
    · rw [hcb.1]
    · unfold Unpacker.stream
      dsimp only
      rw [← hcb.2]

theorem Unpacker.readBits_spec (n : Nat) : ∀ u : Unpacker, n ≤ u.stream.length →
    (u.readBits n).1 = .ok (u.stream.take n) ∧
    (u.readBits n).2.stream = u.stream.drop n := by
  induction n with
  | zero =>
    intro u h
    simp [Unpacker.readBits]
  | succ n ih =>
    intro u h
    obtain ⟨b, s, hbs⟩ : ∃ b s, u.stream = b :: s := by
      cases hcs : u.stream with
      | nil => rw [hcs] at h; simp at h
      | cons b s => exact ⟨b, s, rfl⟩
    obtain ⟨h1, h2⟩ := Unpacker.readBit_cons u b s hbs
    have hsplit : u.readBit = (.ok b, (u.readBit).2) := by
      rw [← h1]
    have hlen2 : n ≤ (u.readBit).2.stream.length := by
      rw [h2]
      rw [hbs] at h
      simpa using h
    obtain ⟨h3, h4⟩ := ih (u.readBit).2 hlen2
    have hsplit2 : (u.readBit).2.readBits n = (.ok ((u.readBit).2.stream.take n), ((u.readBit).2.readBits n).2) := by
      rw [← h3]
    simp only [Unpacker.readBits]
    rw [hsplit]
    dsimp only
    rw [hsplit2]
    dsimp only
    constructor
    · rw [h2, hbs, List.take_succ_cons]
    · rw [h4, h2, hbs, List.drop_succ_cons]

theorem Unpacker.readBits_isOk_false (n : Nat) : ∀ u : Unpacker,
    u.stream.length < n → ((u.readBits n).1.isOk = false) := by
  induction n with
  | zero =>
    intro u h
    cases h
  | succ n ih =>
    intro u h
    cases hcs : u.stream with
    | nil =>
      have hrb := Unpacker.readBit_of_stream_nil u hcs
      simp only [Unpacker.readBits]
      rw [hrb]
      rfl
    | cons b s =>
      obtain ⟨h1, h2⟩ := Unpacker.readBit_cons u b s hcs
      have hsplit : u.readBit = (.ok b, (u.readBit).2) := by
        rw [← h1]
      have hlen : (u.readBit).2.stream.length < n := by
        rw [h2]
        rw [hcs] at h
        simpa using h
      have hih := ih (u.readBit).2 hlen
      simp only [Unpacker.readBits]
      rw [hsplit]
      dsimp only
      cases hres : (u.readBit).2.readBits n with
      | mk r u2 =>
        rw [hres] at hih
        cases r with
        | error e => rfl
        | ok v =>
          exact absurd hih (by simp [Except.isOk, Except.toBool])

theorem Unpacker.peekLoop_spec (n : Nat) : ∀ k (u : Unpacker), u.bytes.size = k →
    (u.remaining < n → (u.peekLoop n).1 = some "Not enough bits to peek") ∧
    (n ≤ u.remaining → (u.peekLoop n).1 = none ∧ n ≤ (u.peekLoop n).2.bits.length) ∧
    (u.peekLoop n).2.stream = u.stream := by
  intro k
  induction k using Nat.strong_induction_on with
  | _ k ih =>
    intro u hk
    by_cases hlt : u.bits.length < n
    · by_cases hz : u.bytes.size = 0
      · have heq : u.peekLoop n = (some "Not enough bits to peek", u) := by
          unfold Unpacker.peekLoop
          rw [if_pos hlt, if_pos hz]
        refine ⟨fun _ => by rw [heq], fun hge => ?_, by rw [heq]⟩
        exfalso
        unfold Unpacker.remaining at hge
        omega
      · have hstep : u.peekLoop n = (u.unpackByte).peekLoop n := by
          conv_lhs => unfold Unpacker.peekLoop
          rw [if_pos hlt, if_neg hz]
        have hdec : (u.unpackByte).bytes.size < k := by
          rw [← hk]
          exact Unpacker.unpackByte_size_lt u hz
        have hrec := ih _ hdec (u.unpackByte) rfl
        have hrem : (u.unpackByte).remaining = u.remaining := by
          rw [Unpacker.remaining_eq_stream_length, Unpacker.remaining_eq_stream_length,
            Unpacker.unpackByte_stream]
        rw [hstep]
        refine ⟨fun hlt' => hrec.1 (by rw [hrem]; exact hlt'),
          fun hge => hrec.2.1 (by rw [hrem]; exact hge), ?_⟩
        rw [hrec.2.2, Unpacker.unpackByte_stream]
    · have heq : u.peekLoop n = (none, u) := by
        unfold Unpacker.peekLoop
        rw [if_neg hlt]
      refine ⟨fun hlt' => ?_, fun _ => ⟨by rw [heq], by rw [heq]; dsimp only; omega⟩,
        by rw [heq]⟩
      exfalso
      unfold Unpacker.remaining at hlt'
      omega

theorem Unpacker.peek_spec (u : Unpacker) (n : Nat) :
    (n ≤ u.remaining → (u.peek n).1 = .ok (u.stream.take n)) ∧
    (u.remaining < n → (u.peek n).1 = .error "Not enough bits to peek") ∧
    (u.peek n).2.stream = u.stream := by
  have hspec := Unpacker.peekLoop_spec n u.bytes.size u rfl
  unfold Unpacker.peek
  cases hp : u.peekLoop n with
  | mk o u' =>
    rw [hp] at hspec
    cases o with
    | none =>
      dsimp only at hspec ⊢
      refine ⟨fun hge => ?_, fun hlt => ?_, hspec.2.2⟩
      · have hbl := (hspec.2.1 hge).2
        have htake : u'.bits.take n = u'.stream.take n := by
          unfold Unpacker.stream
          rw [List.take_append_of_le_length hbl]
        rw [htake, hspec.2.2]
      · exact absurd (hspec.1 hlt) (by simp)
    | some e =>
      dsimp only at hspec ⊢
      refine ⟨fun hge => ?_, fun hlt => ?_, hspec.2.2⟩
      · exact absurd (hspec.2.1 hge).1 (by simp)
      · have := hspec.1 hlt
        injection this with hmsg
        rw [hmsg]

/-- C3: if fewer than `n` bits remain in total, `peek n` fails with the
insufficient-data error while preserving the upcoming bit stream (no
bits are lost, only moved from unread bytes into the queue); if at
least `n` bits remain, it returns the first `n` upcoming bits and
consumes nothing.  (`peek` is a total Lean function, so termination is
by construction.) -/
theorem c3_peek_spec (u : Unpacker) (n : Nat) :
    (u.remaining < n →
      (u.peek n).1 = .error "Not enough bits to peek" ∧
      (u.peek n).2.stream = u.stream ∧ (u.peek n).2.remaining = u.remaining) ∧
    (n ≤ u.remaining →
      (u.peek n).1 = .ok (u.stream.take n) ∧
      (u.peek n).2.stream = u.stream ∧ (u.peek n).2.remaining = u.remaining) := by
  have hs := Unpacker.peek_spec u n
  have hrem : (u.peek n).2.remaining = u.remaining := by
    rw [Unpacker.remaining_eq_stream_length, Unpacker.remaining_eq_stream_length, hs.2.2]
  exact ⟨fun hlt => ⟨hs.2.1 hlt, hs.2.2, hrem⟩, fun hge => ⟨hs.1 hge, hs.2.2, hrem⟩⟩

/-- C3 witness: a one-byte unpacker peeking 20 bits (failure) and 4
bits (success). -/
theorem c3_peek_witness :
    ((Unpacker.peek ⟨[], ⟨[160], 0⟩⟩ 20).1 = .error "Not enough bits to peek" ∧
      (Unpacker.peek ⟨[], ⟨[160], 0⟩⟩ 20).2.stream = Unpacker.stream ⟨[], ⟨[160], 0⟩⟩ ∧
      (Unpacker.peek ⟨[], ⟨[160], 0⟩⟩ 20).2.remaining =
        Unpacker.remaining ⟨[], ⟨[160], 0⟩⟩) ∧
    ((Unpacker.peek ⟨[], ⟨[160], 0⟩⟩ 4).1 =
        .ok ((Unpacker.stream ⟨[], ⟨[160], 0⟩⟩).take 4) ∧
      (Unpacker.peek ⟨[], ⟨[160], 0⟩⟩ 4).2.stream = Unpacker.stream ⟨[], ⟨[160], 0⟩⟩ ∧
      (Unpacker.peek ⟨[], ⟨[160], 0⟩⟩ 4).2.remaining =
        Unpacker.remaining ⟨[], ⟨[160], 0⟩⟩) :=
  ⟨(c3_peek_spec ⟨[], ⟨[160], 0⟩⟩ 20).1 (by decide),
   (c3_peek_spec ⟨[], ⟨[160], 0⟩⟩ 4).2 (by decide)⟩

/-- C4: `remaining` is the bit-queue length plus 8 per unread byte, and
a successful `readBits k` decreases it by exactly `k`. -/
theorem c4_remaining_spec (u : Unpacker) (k : Nat) :
    u.remaining = u.bits.length + u.bytes.size * 8 ∧
    ((u.readBits k).1.isOk = true → (u.readBits k).2.remaining + k = u.remaining) := by
  refine ⟨rfl, fun hok => ?_⟩
  have hk : k ≤ u.stream.length := by
    by_contra hgt
    push_neg at hgt
    rw [Unpacker.readBits_isOk_false k u hgt] at hok
    exact absurd hok (by simp)
  obtain ⟨-, h2⟩ := Unpacker.readBits_spec k u hk
  rw [Unpacker.remaining_eq_stream_length, Unpacker.remaining_eq_stream_length, h2,
    List.length_drop]
  omega

/-- C4 witness: reading 3 bits of a 16-bit stream leaves 13. -/
theorem c4_remaining_witness :
    (Unpacker.readBits ⟨[], ⟨[5, 6], 0⟩⟩ 3).2.remaining + 3 =
      Unpacker.remaining ⟨[], ⟨[5, 6], 0⟩⟩ :=
  (c4_remaining_spec ⟨[], ⟨[5, 6], 0⟩⟩ 3).2 (by decide)

/-- C5: with at least `n` bits remaining, `peek n` returns the first
`n` upcoming bits, an immediate `readBits n` returns the same
sequence, and an immediate second `peek n` also returns the same
sequence. -/
theorem c5_peek_read_agree (u : Unpacker) (n : Nat) (h : n ≤ u.remaining) :
    (u.peek n).1 = .ok (u.stream.take n) ∧
    ((u.peek n).2.readBits n).1 = (u.peek n).1 ∧
    ((u.peek n).2.peek n).1 = (u.peek n).1 := by
  have hs := Unpacker.peek_spec u n
  have h1 := hs.1 h
  have hstr := hs.2.2
  have hrem2 : n ≤ (u.peek n).2.stream.length := by
    rw [hstr, ← Unpacker.remaining_eq_stream_length]
    exact h
  refine ⟨h1, ?_, ?_⟩
  · have hr := (Unpacker.readBits_spec n (u.peek n).2 hrem2).1
    rw [hr, hstr, h1]
  · have hs2 := Unpacker.peek_spec (u.peek n).2 n
    have hge2 : n ≤ (u.peek n).2.remaining := by
      rw [Unpacker.remaining_eq_stream_length]
      exact hrem2
    rw [hs2.1 hge2, hstr, h1]

/-- C5 witness: peek/read agreement at 4 bits of a one-byte stream. -/
theorem c5_peek_read_witness :
    (Unpacker.peek ⟨[], ⟨[160], 0⟩⟩ 4).1 =
        .ok ((Unpacker.stream ⟨[], ⟨[160], 0⟩⟩).take 4) ∧
    ((Unpacker.peek ⟨[], ⟨[160], 0⟩⟩ 4).2.readBits 4).1 =
        (Unpacker.peek ⟨[], ⟨[160], 0⟩⟩ 4).1 ∧
    ((Unpacker.peek ⟨[], ⟨[160], 0⟩⟩ 4).2.peek 4).1 =
        (Unpacker.peek ⟨[], ⟨[160], 0⟩⟩ 4).1 :=
  c5_peek_read_agree ⟨[], ⟨[160], 0⟩⟩ 4 (by decide)

/-- C7: `readBit` fails exactly when both the bit queue and the byte
source are empty, and the failure leaves the state unchanged
(exhaustion is per call, not sticky); with an empty queue and an
unread byte available, it consumes that byte, explodes it MSB-first,
and returns its top bit, queueing the other 7. -/
theorem c7_readBit_spec (u : Unpacker) :
    ((u.readBit).1.isOk = false ↔ u.bits = [] ∧ u.bytes.size = 0) ∧
    (u.bits = [] → u.bytes.size = 0 →
      u.readBit = (.error "Unexpected end of stream", u)) ∧
    (∀ b rest, u.bits = [] → u.bytes.get = b :: rest →
      (u.readBit).1 = .ok (toBit ((b >>> 7) &&& 1)) ∧
      (u.readBit).2.bits = (byteToBits b).tail ∧
      (u.readBit).2.bytes.get = rest ∧
      (u.readBit).2.bytes.size + 1 = u.bytes.size) := by
  refine ⟨⟨?_, ?_⟩, ?_, ?_⟩
  · intro hfalse
    by_contra hnot
    have hstream : u.stream ≠ [] := fun hnil => hnot ((Unpacker.stream_eq_nil_iff u).mp hnil)
    obtain ⟨b, s, hbs⟩ : ∃ b s, u.stream = b :: s := by
      cases hcs : u.stream with
      | nil => exact absurd hcs hstream
      | cons b s => exact ⟨b, s, rfl⟩
    have hok := (Unpacker.readBit_cons u b s hbs).1
    rw [hok] at hfalse
    exact absurd hfalse (by simp [Except.isOk, Except.toBool])
  · rintro ⟨hb, hz⟩
    rw [Unpacker.readBit_of_stream_nil u ((Unpacker.stream_eq_nil_iff u).mpr ⟨hb, hz⟩)]
    rfl
  · intro hb hz
    rw [Unpacker.readBit_of_stream_nil u ((Unpacker.stream_eq_nil_iff u).mpr ⟨hb, hz⟩)]
  · intro b rest hbits hget
    have hz : u.bytes.size ≠ 0 := by
      have hlen := ResizableUint8Array.get_length u.bytes
      rw [hget] at hlen
      simp only [List.length_cons] at hlen
      omega
    obtain ⟨b0, a', hs, hget0, hsz⟩ := ResizableUint8Array.shift_spec u.bytes hz
    rw [hget] at hget0
    injection hget0 with hb0 hrest
    have hub : u.unpackByte = { bits := byteToBits b, bytes := a' } := by
      unfold Unpacker.unpackByte
      rw [hs, hbits, ← hb0]
      simp
    have hlen0 : u.bits.length = 0 := by rw [hbits]; rfl
    have hshape : byteToBits b = toBit ((b >>> 7) &&& 1) :: (byteToBits b).tail := rfl
    simp only [Unpacker.readBit]
    rw [if_pos hlen0, hub]
    dsimp only
    rw [hshape]
    dsimp only
    refine ⟨rfl, rfl, ?_, ?_⟩
    · rw [← hrest]
    · exact hsz

/-- C7 witness: reading from an exhausted unpacker versus one with one
unread byte 170 = 0b10101010. -/
theorem c7_readBit_witness :
    (Unpacker.readBit ⟨[], ⟨[], 0⟩⟩ =
      (.error "Unexpected end of stream", ⟨[], ⟨[], 0⟩⟩)) ∧
    ((Unpacker.readBit ⟨[], ⟨[170], 0⟩⟩).1 = .ok (toBit ((170 >>> 7) &&& 1)) ∧
      (Unpacker.readBit ⟨[], ⟨[170], 0⟩⟩).2.bits = (byteToBits 170).tail ∧
      (Unpacker.readBit ⟨[], ⟨[170], 0⟩⟩).2.bytes.get = [] ∧
      (Unpacker.readBit ⟨[], ⟨[170], 0⟩⟩).2.bytes.size + 1 =
        (⟨[], ⟨[170], 0⟩⟩ : Unpacker).bytes.size) :=
  ⟨(c7_readBit_spec ⟨[], ⟨[], 0⟩⟩).2.1 rfl rfl,
   (c7_readBit_spec ⟨[], ⟨[170], 0⟩⟩).2.2 170 [] rfl rfl⟩

/-- C8: `push` rejects exactly the values outside `[0, 255]` with a
range error and `set` rejects a whole batch as soon as any element is
out of range; both validate before mutating, so a failed call writes
nothing (the `Except` error carries no new state). -/
theorem c8_push_set_validation (a : ResizableUint8Array) (v : Int) (l : List Int) :
    ((a.push v).isOk = false ↔ v < 0 ∨ v > 255) ∧
    (0 ≤ v → v ≤ 255 → a.push v = .ok { a with inner := a.inner ++ [v.toNat] }) ∧
    ((a.set l).isOk = false ↔ ∃ x ∈ l, x < 0 ∨ x > 255) ∧
    ((∀ x ∈ l, 0 ≤ x ∧ x ≤ 255) →
      a.set l = .ok { a with inner := a.inner ++ l.map Int.toNat }) := by
  refine ⟨?_, ?_, ?_, ?_⟩
  · unfold ResizableUint8Array.push
    split
    · rename_i h
      simp only [isByte, Bool.and_eq_true, decide_eq_true_eq] at h
      simp only [Except.isOk, Except.toBool]
      constructor
      · intro _; omega
      · intro _; trivial
    · rename_i h
      simp only [isByte, Bool.and_eq_true, decide_eq_true_eq, not_not] at h
      simp only [Except.isOk, Except.toBool]
      constructor
      · intro hc; exact absurd hc (by simp)
      · intro hc; omega
  · intro h0 h255
    unfold ResizableUint8Array.push
    rw [if_neg (by simp only [isByte, Bool.and_eq_true, decide_eq_true_eq, not_not]; omega)]
  · unfold ResizableUint8Array.set
    split
    · rename_i h
      simp only [isArrayOfBytes, List.all_eq_true, isByte, Bool.and_eq_true,
        decide_eq_true_eq, not_forall] at h
      simp only [Except.isOk, Except.toBool]
      constructor
      · intro _
        obtain ⟨x, hx, hnot⟩ := h
        exact ⟨x, hx, by omega⟩
      · intro _; trivial
    · rename_i h
      simp only [isArrayOfBytes, List.all_eq_true, isByte, Bool.and_eq_true,
        decide_eq_true_eq, not_not] at h
      simp only [Except.isOk, Except.toBool]
      constructor
      · intro hc; exact absurd hc (by simp)
      · rintro ⟨x, hx, hout⟩
        have := h x hx
        omega
  · intro hall
    unfold ResizableUint8Array.set
    rw [if_neg (by
      simp only [isArrayOfBytes, List.all_eq_true, isByte, Bool.and_eq_true,
        decide_eq_true_eq, not_not]
      intro x hx
      exact ⟨(hall x hx).1, (hall x hx).2⟩)]

/-- C8 witness: pushing 300 fails, pushing 7 succeeds; setting [1, 300]
fails, setting [3, 4] succeeds, on the buffer ⟨[1, 2], 0⟩. -/
theorem c8_push_set_witness :
    ((ResizableUint8Array.push ⟨[1, 2], 0⟩ 300).isOk = false ↔
      (300 : Int) < 0 ∨ (300 : Int) > 255) ∧
    (ResizableUint8Array.push ⟨[1, 2], 0⟩ 7 =
      .ok ⟨[1, 2] ++ [(7 : Int).toNat], 0⟩) ∧
    ((ResizableUint8Array.set ⟨[1, 2], 0⟩ [1, 300]).isOk = false ↔
      ∃ x ∈ [(1 : Int), 300], x < 0 ∨ x > 255) ∧
    (ResizableUint8Array.set ⟨[1, 2], 0⟩ [3, 4] =
      .ok ⟨[1, 2] ++ ([(3 : Int), 4].map Int.toNat), 0⟩) :=
  ⟨(c8_push_set_validation ⟨[1, 2], 0⟩ 300 [1, 300]).1,
   (c8_push_set_validation ⟨[1, 2], 0⟩ 7 [1, 300]).2.1 (by norm_num) (by norm_num),
   (c8_push_set_validation ⟨[1, 2], 0⟩ 300 [1, 300]).2.2.1,
   (c8_push_set_validation ⟨[1, 2], 0⟩ 300 [3, 4]).2.2.2 (by decide)⟩

/-! ### Packer flush lemmas -/

theorem padded_le_one (bits : List Nat) (hb : ∀ b ∈ bits, b ≤ 1) (k : Nat) :
    ∀ x ∈ bits ++ List.replicate k 0, x ≤ 1 := by
  intro x hx
  rcases List.mem_append.mp hx with h | h
  · exact hb x h
  · rw [List.eq_of_mem_replicate h]
    omega

theorem padded_getUint_le (bits : List Nat) (hb : ∀ b ∈ bits, b ≤ 1)
    (hlen : bits.length ≤ 8) :
    getUint (bits ++ List.replicate (8 - bits.length) 0) ≤ 255 := by
  have hble := padded_le_one bits hb (8 - bits.length)
  have hlen8 : (bits ++ List.replicate (8 - bits.length) 0).length = 8 := by
    simp only [List.length_append, List.length_replicate]
    omega
  have hlt := bigEndianVal_lt _ hble
  rw [hlen8] at hlt
  have hg := getUint_eq_bigEndianVal _ hble (by rw [hlen8]; norm_num)
  rw [hg]
  norm_num at hlt
  omega

/-- `flushBits` on a partial trailing group (1–7 pending bits): pushes
exactly one zero-padded byte and leaves the bit queue untouched. -/
theorem Packer.flushBits_pending (p : Packer) (h1 : 1 ≤ p.bits.length)
    (h7 : p.bits.length ≤ 7) (hb : ∀ b ∈ p.bits, b ≤ 1) :
    p.flushBits =
      .ok ⟨⟨p.bytes.inner ++ [padByte p.bits], p.bytes.readPosition⟩, p.bits⟩ := by
  simp only [padByte]
  have hcond : p.bits.length % 8 ≠ 0 := by omega
  have hle := padded_getUint_le p.bits hb (by omega)
  simp only [Packer.flushBits]
  rw [if_pos hcond]
  unfold ResizableUint8Array.push
  rw [if_neg (by
    simp only [isByte, Bool.and_eq_true, decide_eq_true_eq, not_not]
    constructor
    · positivity
    · exact_mod_cast hle)]
  simp only [Int.toNat_natCast]
  rfl

/-- `flushBits` with an empty bit queue is the identity. -/
theorem Packer.flushBits_empty (p : Packer) (hq : p.bits = []) :
    p.flushBits = .ok p := by
  simp only [Packer.flushBits]
  rw [if_neg (by rw [hq]; simp)]

theorem Packer.getBuffer_eq (p q : Packer) (h : p.flushBits = .ok q) :
    p.getBuffer = .ok (q.bytes.get, q) := by
  unfold Packer.getBuffer
  rw [h]
  rfl

theorem Packer.getBytes_eq (p q : Packer) (h : p.flushBits = .ok q) :
    p.getBytes = .ok (q.bytes.get, ⟨⟨q.bytes.inner, q.bytes.inner.length⟩, q.bits⟩) := by
  unfold Packer.getBytes
  rw [h]
  rfl

/-- C1 counterexample: a Packer with one pending bit.  The first
`getBuffer` returns [128] but leaves the pending bit queued; the
second call (no puts in between) re-pads and pushes a duplicate 128,
returning a different byte sequence. -/
theorem c1_counterexample :
    Packer.getBuffer ⟨⟨[], 0⟩, [1]⟩ = .ok ([128], ⟨⟨[128], 0⟩, [1]⟩) ∧
    Packer.getBuffer ⟨⟨[128], 0⟩, [1]⟩ = .ok ([128, 128], ⟨⟨[128, 128], 0⟩, [1]⟩) ∧
    ([128, 128] : List Nat) ≠ [128] :=
  ⟨rfl, rfl, by decide⟩

/-- C1 amended: on a first `getBytes`/`getBuffer` with 1–7 pending
bits, the partial group is zero-padded into exactly one byte, pushed,
and the full sequence returned — but the pending bits stay queued
(`flushBits` never clears `this.bits`), so a second call with no puts
in between pads and pushes a duplicate trailing byte: `getBuffer`
then returns the first sequence with an extra copy of the padded byte,
and `getBytes` (whose spread had consumed the buffer) returns just the
duplicate byte. -/
theorem c1_amended_flush_duplicates (p : Packer) (h1 : 1 ≤ p.bits.length)
    (h7 : p.bits.length ≤ 7) (hb : ∀ b ∈ p.bits, b ≤ 1)
    (hr : p.bytes.readPosition = 0) :
    p.getBuffer = .ok (p.bytes.inner ++ [padByte p.bits],
      ⟨⟨p.bytes.inner ++ [padByte p.bits], 0⟩, p.bits⟩) ∧
    Packer.getBuffer ⟨⟨p.bytes.inner ++ [padByte p.bits], 0⟩, p.bits⟩ =
      .ok (p.bytes.inner ++ [padByte p.bits] ++ [padByte p.bits],
        ⟨⟨p.bytes.inner ++ [padByte p.bits] ++ [padByte p.bits], 0⟩, p.bits⟩) ∧
    p.getBytes = .ok (p.bytes.inner ++ [padByte p.bits],
      ⟨⟨p.bytes.inner ++ [padByte p.bits],
        (p.bytes.inner ++ [padByte p.bits]).length⟩, p.bits⟩) ∧
    Packer.getBytes ⟨⟨p.bytes.inner ++ [padByte p.bits],
        (p.bytes.inner ++ [padByte p.bits]).length⟩, p.bits⟩ =
      .ok ([padByte p.bits],
        ⟨⟨p.bytes.inner ++ [padByte p.bits] ++ [padByte p.bits],
          (p.bytes.inner ++ [padByte p.bits] ++ [padByte p.bits]).length⟩, p.bits⟩) := by
  have hf1 := Packer.flushBits_pending p h1 h7 hb
  rw [hr] at hf1
  have hf2 := Packer.flushBits_pending ⟨⟨p.bytes.inner ++ [padByte p.bits], 0⟩, p.bits⟩
    h1 h7 hb
  have hf3 := Packer.flushBits_pending ⟨⟨p.bytes.inner ++ [padByte p.bits],
    (p.bytes.inner ++ [padByte p.bits]).length⟩, p.bits⟩ h1 h7 hb
  refine ⟨?_, ?_, ?_, ?_⟩
  · rw [Packer.getBuffer_eq _ _ hf1]
    simp [ResizableUint8Array.get]
  · rw [Packer.getBuffer_eq _ _ hf2]
    simp [ResizableUint8Array.get]
  · rw [Packer.getBytes_eq _ _ hf1]
    simp [ResizableUint8Array.get]
  · rw [Packer.getBytes_eq _ _ hf3]
    congr 1
    rw [show (⟨⟨p.bytes.inner ++ [padByte p.bits] ++ [padByte p.bits],
        (p.bytes.inner ++ [padByte p.bits]).length⟩, p.bits⟩ : Packer).bytes.get =
          [padByte p.bits] from by
      simp only [ResizableUint8Array.get]
      exact List.drop_left (p.bytes.inner ++ [padByte p.bits]) [padByte p.bits]]

/-- C1 amended witness: the Packer with one pending bit 1 over an
empty buffer. -/
theorem c1_amended_witness :
    Packer.getBuffer ⟨⟨[], 0⟩, [1]⟩ = .ok ([] ++ [padByte [1]],
      ⟨⟨[] ++ [padByte [1]], 0⟩, [1]⟩) ∧
    Packer.getBuffer ⟨⟨[] ++ [padByte [1]], 0⟩, [1]⟩ =
      .ok ([] ++ [padByte [1]] ++ [padByte [1]],
        ⟨⟨[] ++ [padByte [1]] ++ [padByte [1]], 0⟩, [1]⟩) ∧
    Packer.getBytes ⟨⟨[], 0⟩, [1]⟩ = .ok ([] ++ [padByte [1]],
      ⟨⟨[] ++ [padByte [1]], ([] ++ [padByte [1]] : List Nat).length⟩, [1]⟩) ∧
    Packer.getBytes ⟨⟨[] ++ [padByte [1]],
        ([] ++ [padByte [1]] : List Nat).length⟩, [1]⟩ =
      .ok ([padByte [1]],
        ⟨⟨[] ++ [padByte [1]] ++ [padByte [1]],
          ([] ++ [padByte [1]] ++ [padByte [1]] : List Nat).length⟩, [1]⟩) :=
  c1_amended_flush_duplicates ⟨⟨[], 0⟩, [1]⟩ (by decide) (by decide) (by decide) rfl

/-- C10: with an empty bit queue, `getBuffer` is a pure snapshot (the
post-state is the Packer itself, so repeated calls agree), while
`getBytes` consumes the unread region: afterwards the buffer's unread
length is 0, and a later `getBytes` returns only bytes appended after
the previous call. -/
theorem c10_getBuffer_pure_getBytes_consumes (p : Packer) (hq : p.bits = [])
    (extra : List Nat) :
    p.getBuffer = .ok (p.bytes.get, p) ∧
    p.getBytes = .ok (p.bytes.get, ⟨⟨p.bytes.inner, p.bytes.inner.length⟩, p.bits⟩) ∧
    ResizableUint8Array.size ⟨p.bytes.inner, p.bytes.inner.length⟩ = 0 ∧
    Packer.getBytes ⟨⟨p.bytes.inner ++ extra, p.bytes.inner.length⟩, []⟩ =
      .ok (extra, ⟨⟨p.bytes.inner ++ extra, (p.bytes.inner ++ extra).length⟩, []⟩) := by
  have hf := Packer.flushBits_empty p hq
  refine ⟨?_, ?_, ?_, ?_⟩
  · exact Packer.getBuffer_eq p p hf
  · exact Packer.getBytes_eq p p hf
  · simp [ResizableUint8Array.size]
  · have hf2 := Packer.flushBits_empty ⟨⟨p.bytes.inner ++ extra, p.bytes.inner.length⟩, []⟩ rfl
    rw [Packer.getBytes_eq _ _ hf2]
    congr 1
    rw [show (⟨⟨p.bytes.inner ++ extra, p.bytes.inner.length⟩, ([] : List Nat)⟩ :
        Packer).bytes.get = extra from by
      simp only [ResizableUint8Array.get]
      exact List.drop_left p.bytes.inner extra]

/-- C10 witness: a Packer holding the single flushed byte 7 with an
empty bit queue, later extended with the byte 9. -/
theorem c10_witness :
    Packer.getBuffer ⟨⟨[7], 0⟩, []⟩ =
      .ok (ResizableUint8Array.get ⟨[7], 0⟩, ⟨⟨[7], 0⟩, []⟩) ∧
    Packer.getBytes ⟨⟨[7], 0⟩, []⟩ =
      .ok (ResizableUint8Array.get ⟨[7], 0⟩, ⟨⟨[7], ([7] : List Nat).length⟩, []⟩) ∧
    ResizableUint8Array.size ⟨[7], ([7] : List Nat).length⟩ = 0 ∧
    Packer.getBytes ⟨⟨[7] ++ [9], ([7] : List Nat).length⟩, []⟩ =
      .ok ([9], ⟨⟨[7] ++ [9], ([7] ++ [9] : List Nat).length⟩, []⟩) :=
  c10_getBuffer_pure_getBytes_consumes ⟨⟨[7], 0⟩, []⟩ rfl [9]
